import Mathlib

/-!
Verification of the PSON `Encoder` (src/PSON/Encoder.ts).

The encoder classifies a JSON-like value into tagged wire variants and
maintains an insertion-ordered string dictionary (`dict` / `next`) that may
grow during progressive object-key encoding.  We embed the encoder shallowly:

* `Value` is the closed input domain of `_encodeValue` (JS runtime kinds).
* JS numbers are doubles.  We split them by the source's integrality test
  (`val === parseInt(val)`): `JsNum.int n` models an integral double with
  `|n| < 10^21` (on that range `parseInt` is the identity, so the source takes
  the integer branch exactly for these), and `JsNum.flt` models a number on
  which the test fails, carrying the outcome of the float32 round-trip
  comparison `val === readFloat32(writeFloat32(val))` and the abstract IEEE-754
  little-endian payload bytes the external sink would write for it.
* The byte sink (external `ByteBuffer`) is modelled as a token stream: one
  `WireItem` per sink method call, with `itemBytes` giving the bytes each call
  appends, per the sink contract of the spec.
-/

namespace PSON

/-- Modelled from the spec: the tag-byte constants of `src/PSON/T.ts`, a file
of this repository not present under `src/`.  The spec fixes only that the
small-integer sub-range `[0, MAX]` and the symbolic tags are mutually
exclusive; we use the concrete disjoint values of the PSON wire format. -/
def MAX : Nat := 239

/-- Modelled from the spec: symbolic tag Null. -/
def NULL : Nat := 240

/-- Modelled from the spec: symbolic tag True. -/
def TRUE : Nat := 241

/-- Modelled from the spec: symbolic tag False. -/
def FALSE : Nat := 242

/-- Modelled from the spec: symbolic tag EmptyObject. -/
def EOBJECT : Nat := 243

/-- Modelled from the spec: symbolic tag EmptyArray. -/
def EARRAY : Nat := 244

/-- Modelled from the spec: symbolic tag EmptyString. -/
def ESTRING : Nat := 245

/-- Modelled from the spec: symbolic tag Object. -/
def OBJECT : Nat := 246

/-- Modelled from the spec: symbolic tag Array. -/
def ARRAY : Nat := 247

/-- Modelled from the spec: symbolic tag String. -/
def STRING : Nat := 248

/-- Modelled from the spec: symbolic tag StringAdd. -/
def STRING_ADD : Nat := 249

/-- Modelled from the spec: symbolic tag StringGet. -/
def STRING_GET : Nat := 250

/-- Modelled from the spec: symbolic tag Integer. -/
def INTEGER : Nat := 251

/-- Modelled from the spec: symbolic tag Long. -/
def LONG : Nat := 252

/-- Modelled from the spec: symbolic tag Float. -/
def FLOAT : Nat := 253

/-- Modelled from the spec: symbolic tag Double. -/
def DOUBLE : Nat := 254

/-- Modelled from the spec: symbolic tag Binary. -/
def BINARY : Nat := 255

/-- Truncation of an integer to a signed 32-bit value, as JavaScript's
`value | 0` does inside the external sink's zigzag encoder. -/
def toInt32 (n : Int) : Int := (n + 2 ^ 31) % 2 ^ 32 - 2 ^ 31

/-- Modelled from the spec: `ByteBuffer.zigZagEncode32`, the external sink's
32-bit zigzag encoder called by the source at the integer branch.  It first
truncates its argument to 32 bits (`value |= 0`), then interleaves sign:
`(m << 1) ^ (m >> 31)`, read as an unsigned 32-bit value. -/
def zigZagEncode32 (n : Int) : Nat :=
  let m := toInt32 n
  (if 0 ≤ m then 2 * m else -(2 * m) - 1).toNat

/-- Modelled from the spec: the decoder's inverse of the zigzag mapping
(the decoder mirrors the encoder per the spec). -/
def zigZagDecode32 (u : Nat) : Int :=
  if u % 2 = 0 then (u / 2 : Nat) else -((u / 2 : Nat) : Int) - 1

/-- Modelled from the spec: the external sink's unsigned base-128 varint
writer (`writeVarint32`): seven payload bits per byte, continuation bit on
every byte but the last. -/
def varintBytes (n : Nat) : List Nat :=
  if n < 128 then [n] else (n % 128 + 128) :: varintBytes (n / 128)
decreasing_by exact Nat.div_lt_self (by omega) (by omega)

/-- Modelled from the spec: the decoder's unsigned varint reader, mirroring
`varintBytes`. -/
def varintDecode : List Nat → Nat
  | [] => 0
  | b :: rest => b % 128 + 128 * varintDecode rest

/-- Truncation of an integer to a signed 64-bit value, as the external
`Long` type does. -/
def toInt64 (n : Int) : Int := (n + 2 ^ 63) % 2 ^ 64 - 2 ^ 63

/-- Modelled from the spec: the external sink's 64-bit zigzag encoder used by
`writeVarint64ZigZag`. -/
def zigZagEncode64 (n : Int) : Nat :=
  let m := toInt64 n
  (if 0 ≤ m then 2 * m else -(2 * m) - 1).toNat

/-- A JavaScript number, split by the source's integrality test.  `int n`
models an integral double with `|n| < 10^21` (there `parseInt` returns the
value unchanged, so `val === parseInt(val)` holds).  `flt` models a number
failing that test: `nan` records whether it is NaN (for JS truthiness),
`f32ok` the outcome of the float32 round-trip comparison, and `b32`/`b64` the
abstract bytes the sink writes for `writeFloat32` / `writeFloat64` of it. -/
inductive JsNum where
  | int (n : Int)
  | flt (nan : Bool) (f32ok : Bool) (b32 : List Nat) (b64 : List Nat)
deriving DecidableEq, Repr

/-- The closed input domain of `_encodeValue`: the JS runtime kinds the
source dispatches on.  `undef` is the value `undefined`; `long` a `Long`
instance; `bin` a byte-coercible value (one `ByteBuffer.wrap` accepts);
`obj` a plain object as an insertion-ordered field list (JS objects have
pairwise-distinct keys). -/
inductive Value where
  | null
  | undef
  | bool (b : Bool)
  | num (n : JsNum)
  | str (s : String)
  | long (v : Int)
  | bin (bs : List Nat)
  | arr (elems : List Value)
  | obj (fields : List (String × Value))

/-- One call to the external byte sink: the wire-item trace of an encode.
`u8` is `writeUint8`, `varint32` is `writeVarint32`, `vzz32`/`vzz64` are
`writeVarint32ZigZag`/`writeVarint64ZigZag`, `vstring` is `writeVString`,
`f32`/`f64` are `writeFloat32`/`writeFloat64` carrying the abstract payload
bytes, `raw` is `append`. -/
inductive WireItem where
  | u8 (b : Nat)
  | varint32 (n : Nat)
  | vzz32 (v : Int)
  | vzz64 (v : Int)
  | vstring (s : String)
  | f32 (bs : List Nat)
  | f64 (bs : List Nat)
  | raw (bs : List Nat)
deriving DecidableEq, Repr

/-- The mutable state of an `Encoder` instance: the dictionary hash (an
insertion-ordered association list, JS object property order), the next
dictionary index, and the progressive flag fixed at construction. -/
structure EncState where
  dict : List (String × Nat)
  next : Nat
  progressive : Bool
deriving DecidableEq, Repr

/-- First-match lookup in the dictionary, as JS property access /
`hasOwnProperty` on `this.dict`. -/
def dictGet : List (String × Nat) → String → Option Nat
  | [], _ => none
  | (k0, i0) :: rest, k => if k0 = k then some i0 else dictGet rest k

/-- JS property assignment `this.dict[k] = i`: updates the value in place if
the key exists (keeping its position), else appends the binding. -/
def dictSet : List (String × Nat) → String → Nat → List (String × Nat)
  | [], k, i => [(k, i)]
  | (k0, i0) :: rest, k, i =>
    if k0 = k then (k0, i) :: rest else (k0, i0) :: dictSet rest k i

/-- The seeding loop of the constructor:
`while (this.next < dict.length) this.dict[dict[this.next]] = this.next++`. -/
def seedLoop : EncState → List String → EncState
  | st, [] => st
  | st, s :: rest =>
    seedLoop { st with dict := dictSet st.dict s st.next, next := st.next + 1 } rest

/-- The `Encoder` constructor: seeds the dictionary from the initial list in
order and records the progressive flag. -/
def mkEncoder (seeds : List String) (progressive : Bool) : EncState :=
  seedLoop { dict := [], next := 0, progressive := progressive } seeds

/-- JS truthiness `!!v` of a value, used for the `_PSON_EXCL_` sentinel. -/
def truthy : Value → Bool
  | .null => false
  | .undef => false
  | .bool b => b
  | .num (.int n) => n ≠ 0
  | .num (.flt nan _ _ _) => !nan
  | .str s => s ≠ ""
  | .long _ => true
  | .bin _ => true
  | .arr _ => true
  | .obj _ => true

/-- Whether a field value is `undefined` (`typeof val[key] === 'undefined'`). -/
def isUndef : Value → Bool
  | .undef => true
  | _ => false

/-- JS property access `val[k]` on an object's field list (first match;
`none` when the property is absent, i.e. the access yields `undefined`). -/
def getField : List (String × Value) → String → Option Value
  | [], _ => none
  | (k0, v) :: rest, k => if k0 = k then some v else getField rest k

/-- Truthiness of a property access result: an absent property is
`undefined`, hence falsy. -/
def truthyOpt : Option Value → Bool
  | none => false
  | some v => truthy v

/-- The exclusion sentinel property name read by the source
(`val._PSON_EXCL_`). -/
def exclKey : String := "_PSON_EXCL_"

mutual

/-- `Encoder._encodeValue(val, buf, excluded)`: classifies one value and
writes its tag and payload, returning the wire-item trace and the updated
encoder state. -/
def _encodeValue : Value → EncState → Bool → List WireItem × EncState
  | .null, st, _ => ([.u8 NULL], st)
  | .str s, st, _ =>
    if s = "" then ([.u8 ESTRING], st)
    else
      match dictGet st.dict s with
      | some i => ([.u8 STRING_GET, .varint32 i], st)
      | none => ([.u8 STRING, .vstring s], st)
  | .num (.int n), st, _ =>
    let zzval := zigZagEncode32 n
    if zzval ≤ MAX then ([.u8 zzval], st)
    else ([.u8 INTEGER, .vzz32 n], st)
  | .num (.flt _ f32ok b32 b64), st, _ =>
    if f32ok then ([.u8 FLOAT, .f32 b32], st)
    else ([.u8 DOUBLE, .f64 b64], st)
  | .bool b, st, _ => ([.u8 (if b then TRUE else FALSE)], st)
  | .arr [], st, _ => ([.u8 EARRAY], st)
  | .arr (e :: es), st, _ =>
    let r := encodeElems (e :: es) st
    (.u8 ARRAY :: .varint32 (e :: es).length :: r.1, r.2)
  | .long v, st, _ => ([.u8 LONG, .vzz64 v], st)
  | .bin bs, st, _ => ([.u8 BINARY, .varint32 bs.length, .raw bs], st)
  | .obj fields, st, excluded =>
    let n := (fields.filter (fun kv => !isUndef kv.2)).length
    if n = 0 then ([.u8 EOBJECT], st)
    else
      let excl := excluded || truthyOpt (getField fields exclKey)
      let r := encodeFields fields st excl
      (.u8 OBJECT :: .varint32 n :: r.1, r.2)
  | .undef, st, _ => ([.u8 NULL], st)

/-- The array-element loop of `_encodeValue`: each element is encoded
recursively with `excluded = false`. -/
def encodeElems : List Value → EncState → List WireItem × EncState
  | [], st => ([], st)
  | v :: vs, st =>
    let r1 := _encodeValue v st false
    let r2 := encodeElems vs r1.2
    (r1.1 ++ r2.1, r2.2)

/-- The object-key loop of `_encodeValue`: skips `undefined`-valued fields,
emits each key via the dictionary (StringGet on a hit; StringAdd with a
dictionary add when progressive and not excluded; plain String otherwise),
then encodes the field value with `excluded = false`. -/
def encodeFields : List (String × Value) → EncState → Bool → List WireItem × EncState
  | [], st, _ => ([], st)
  | (k, v) :: rest, st, excl =>
    if isUndef v then encodeFields rest st excl
    else
      let rk : List WireItem × EncState :=
        match dictGet st.dict k with
        | some i => ([.u8 STRING_GET, .varint32 i], st)
        | none =>
          if st.progressive && !excl then
            ([.u8 STRING_ADD, .vstring k],
              { st with dict := dictSet st.dict k st.next, next := st.next + 1 })
          else
            ([.u8 STRING, .vstring k], st)
      let rv := _encodeValue v rk.2 false
      let rr := encodeFields rest rv.2 excl
      (rk.1 ++ rv.1 ++ rr.1, rr.2)

end

/-- The trace of one `encode(json)` call: `encode` invokes
`this._encodeValue(json, buf.LE(), false)`. -/
def encodeTokens (st : EncState) (json : Value) : List WireItem × EncState :=
  _encodeValue json st false

/-- UTF-8 bytes of a string, as the sink's `writeVString` payload. -/
def utf8Bytes (s : String) : List Nat :=
  s.toUTF8.data.toList.map (fun b => b.toNat)

/-- Bytes appended by one sink call, per the sink contract of the spec:
`writeVarint32ZigZag` writes the varint of the 32-bit zigzag value,
`writeVString` a varint length prefix then the UTF-8 bytes, the float writers
the value's IEEE-754 payload bytes. -/
def itemBytes : WireItem → List Nat
  | .u8 b => [b]
  | .varint32 n => varintBytes n
  | .vzz32 v => varintBytes (zigZagEncode32 v)
  | .vzz64 v => varintBytes (zigZagEncode64 v)
  | .vstring s => varintBytes (utf8Bytes s).length ++ utf8Bytes s
  | .f32 bs => bs
  | .f64 bs => bs
  | .raw bs => bs

/-- Bytes of a whole wire-item trace. -/
def outBytes (items : List WireItem) : List Nat :=
  (items.map itemBytes).flatten

/-! ### Varint and zigzag round-trips -/

theorem varintDecode_varintBytes (n : Nat) : varintDecode (varintBytes n) = n := by
  induction n using Nat.strong_induction_on with
  | _ n ih =>
    rw [varintBytes]
    split
    · simp only [varintDecode]
      omega
    · rw [varintDecode, ih (n / 128) (Nat.div_lt_self (by omega) (by omega))]
      omega

theorem toInt32_eq_self (n : Int) (h1 : -(2 ^ 31) ≤ n) (h2 : n < 2 ^ 31) :
    toInt32 n = n := by
  unfold toInt32
  omega

theorem zigZag32_roundtrip (n : Int) (h1 : -(2 ^ 31) ≤ n) (h2 : n < 2 ^ 31) :
    zigZagDecode32 (zigZagEncode32 n) = n := by
  simp only [zigZagEncode32, zigZagDecode32, toInt32_eq_self n h1 h2]
  split_ifs <;> omega

/-! ### Claims on the Number branch -/

/-- C4: for every integral Number whose 32-bit zigzag encoding is within the
small-integer threshold, `encode(v)` emits exactly one sink write, a single
byte equal to `zigzag32(v)` written directly as the tag byte, with no
payload. -/
theorem c4_small_int_single_byte (st : EncState) (ex : Bool) (n : Int)
    (h : zigZagEncode32 n ≤ MAX) :
    _encodeValue (.num (.int n)) st ex = ([.u8 (zigZagEncode32 n)], st) ∧
    outBytes [.u8 (zigZagEncode32 n)] = [zigZagEncode32 n] := by
  constructor
  · have hdef : _encodeValue (.num (.int n)) st ex
        = (if zigZagEncode32 n ≤ MAX then ([.u8 (zigZagEncode32 n)], st)
           else ([.u8 INTEGER, .vzz32 n], st)) := rfl
    rw [hdef, if_pos h]
  · simp [outBytes, itemBytes]

/-- C4 witness: `v = 3` has zigzag value 6, inside the threshold, and encodes
as the single byte 6. -/
theorem c4_small_int_single_byte_witness :
    _encodeValue (.num (.int 3)) ⟨[], 0, true⟩ false = ([.u8 6], ⟨[], 0, true⟩) ∧
    outBytes [.u8 6] = [6] := by
  have h := c4_small_int_single_byte ⟨[], 0, true⟩ false 3 (by decide)
  have hzz : zigZagEncode32 3 = 6 := by decide
  rw [hzz] at h
  exact h

/-- C3 (amended): for every integral Number in the signed 32-bit range whose
zigzag encoding exceeds the threshold, `encode(v)` emits tag Integer followed
by the varint of the 32-bit zigzag value, and that encoding decodes back to
`v`.  Outside the signed 32-bit range the claim fails: the sink's zigzag
encoder truncates to 32 bits (see the counterexample). -/
theorem c3_integer_tag_zigzag_roundtrip (st : EncState) (ex : Bool) (n : Int)
    (h1 : -(2 ^ 31) ≤ n) (h2 : n < 2 ^ 31) (h3 : MAX < zigZagEncode32 n) :
    _encodeValue (.num (.int n)) st ex = ([.u8 INTEGER, .vzz32 n], st) ∧
    outBytes [.u8 INTEGER, .vzz32 n] = INTEGER :: varintBytes (zigZagEncode32 n) ∧
    zigZagDecode32 (varintDecode (varintBytes (zigZagEncode32 n))) = n := by
  refine ⟨?_, ?_, ?_⟩
  · have hdef : _encodeValue (.num (.int n)) st ex
        = (if zigZagEncode32 n ≤ MAX then ([.u8 (zigZagEncode32 n)], st)
           else ([.u8 INTEGER, .vzz32 n], st)) := rfl
    rw [hdef, if_neg (Nat.not_le.mpr h3)]
  · simp [outBytes, itemBytes]
  · rw [varintDecode_varintBytes]
    exact zigZag32_roundtrip n h1 h2

/-- C3 witness: `v = 1000` (zigzag 2000, above the threshold) emits tag
Integer plus a zigzag varint that decodes back to 1000. -/
theorem c3_integer_tag_zigzag_roundtrip_witness :
    _encodeValue (.num (.int 1000)) ⟨[], 0, true⟩ false
      = ([.u8 INTEGER, .vzz32 1000], ⟨[], 0, true⟩) ∧
    outBytes [.u8 INTEGER, .vzz32 1000] = INTEGER :: varintBytes (zigZagEncode32 1000) ∧
    zigZagDecode32 (varintDecode (varintBytes (zigZagEncode32 1000))) = 1000 :=
  c3_integer_tag_zigzag_roundtrip ⟨[], 0, true⟩ false 1000 (by decide) (by decide) (by decide)

/-- C3 counterexample: the integral Number `2^31 = 2147483648` lies outside
the signed 32-bit range.  The encoder takes the Integer branch (its zigzag
value 4294967295 exceeds the threshold), but the 32-bit zigzag encoding
decodes back to `-2147483648`, not to the original value: the claim's
"decodes back to v ... including values outside the signed 32-bit range" is
false on the code. -/
theorem c3_counterexample :
    _encodeValue (.num (.int 2147483648)) ⟨[], 0, true⟩ false
      = ([.u8 INTEGER, .vzz32 2147483648], ⟨[], 0, true⟩) ∧
    zigZagDecode32 (varintDecode (varintBytes (zigZagEncode32 2147483648)))
      = -2147483648 ∧
    ((-2147483648 : Int) ≠ 2147483648) := by
  refine ⟨by decide, ?_, by decide⟩
  rw [varintDecode_varintBytes]
  decide

/-- C5: for every non-integral Number, the encoder writes tag Float followed
by the 4-byte float exactly when the float32 round-trip comparison succeeds
(`f32ok`), and tag Double followed by the 8-byte double otherwise; the 4-byte
form is chosen if and only if the round-trip is exact. -/
theorem c5_float_iff_roundtrip (st : EncState) (ex : Bool) (nan f32ok : Bool)
    (b32 b64 : List Nat) :
    (_encodeValue (.num (.flt nan f32ok b32 b64)) st ex
        = ([.u8 FLOAT, .f32 b32], st) ↔ f32ok = true) ∧
    (_encodeValue (.num (.flt nan f32ok b32 b64)) st ex
        = ([.u8 DOUBLE, .f64 b64], st) ↔ f32ok = false) := by
  cases f32ok <;> simp [_encodeValue, FLOAT, DOUBLE]

/-- Helper: encoding a concatenation of array elements concatenates the
outputs, threading the encoder state left to right. -/
theorem encodeElems_append (xs ys : List Value) (st : EncState) :
    encodeElems (xs ++ ys) st
      = ((encodeElems xs st).1 ++ (encodeElems ys (encodeElems xs st).2).1,
         (encodeElems ys (encodeElems xs st).2).2) := by
  induction xs generalizing st with
  | nil => simp [encodeElems]
  | cons v vs ih => simp [encodeElems, ih]

/-- C9: the value `undefined`, when passed to `encode` directly or occurring
as an array element, is written as the Null tag byte — identically to `null`
and with no state change — rather than being omitted; inside a non-empty
array it contributes exactly the Null byte at its position, and the array's
element count includes it. -/
theorem c9_undefined_encodes_as_null (st : EncState) (ex : Bool) :
    _encodeValue .undef st ex = ([.u8 NULL], st) ∧
    _encodeValue .undef st ex = _encodeValue .null st ex ∧
    (∀ vs ws : List Value,
      (encodeElems (vs ++ .undef :: ws) st).1
        = (encodeElems vs st).1 ++ .u8 NULL :: (encodeElems ws (encodeElems vs st).2).1) ∧
    (∀ (e : Value) (es : List Value),
      _encodeValue (.arr (e :: es)) st ex
        = (.u8 ARRAY :: .varint32 (e :: es).length :: (encodeElems (e :: es) st).1,
           (encodeElems (e :: es) st).2)) := by
  refine ⟨rfl, rfl, ?_, fun e es => rfl⟩
  intro vs ws
  rw [encodeElems_append]
  simp [encodeElems, _encodeValue]

/-! ### Claims on object-field encoding -/

/-- The present (non-`undefined`-valued) fields of an object, the ones the
source counts (`typeof val[keys[i]] !== 'undefined'`) and encodes. -/
def present (fields : List (String × Value)) : List (String × Value) :=
  fields.filter (fun kv => !isUndef kv.2)

theorem present_cons (k : String) (v : Value) (rest : List (String × Value)) :
    present ((k, v) :: rest)
      = if isUndef v then present rest else (k, v) :: present rest := by
  by_cases h : isUndef v <;> simp [present, List.filter_cons, h]

/-- Skipping `undefined`-valued fields in the key loop is the same as looping
over the present fields only: absent fields contribute no output and no state
change. -/
theorem encodeFields_filter (fs : List (String × Value)) (st : EncState) (e : Bool) :
    encodeFields fs st e = encodeFields (present fs) st e := by
  induction fs generalizing st with
  | nil => rfl
  | cons kv rest ih =>
    obtain ⟨k, v⟩ := kv
    rw [present_cons]
    by_cases hv : isUndef v
    · simp only [encodeFields, hv, if_true]
      exact ih st
    · simp only [encodeFields, hv, Bool.false_eq_true, if_false, ih]

theorem getField_mem (fs : List (String × Value)) (k : String) (v : Value)
    (h : getField fs k = some v) : (k, v) ∈ fs := by
  induction fs with
  | nil => simp [getField] at h
  | cons kv rest ih =>
    obtain ⟨k0, v0⟩ := kv
    by_cases hk : k0 = k
    · subst hk
      simp [getField] at h
      subst h
      exact List.mem_cons_self _ _
    · simp [getField, hk] at h
      exact List.mem_cons_of_mem _ (ih h)

theorem present_ne_nil_of_mem (fs : List (String × Value)) (k : String) (v : Value)
    (hmem : (k, v) ∈ fs) (hv : isUndef v = false) : present fs ≠ [] := by
  have : (k, v) ∈ present fs := by
    simp [present, List.mem_filter, hmem, hv]
  exact List.ne_nil_of_mem this

/-- C7: for an object with some Absent (`undefined`-valued) fields and some
present fields, the encoded pair count is the number of present fields, no
bytes are emitted for any Absent field (the output and final state are those
of encoding the present fields alone, in order), and the present fields are
encoded normally. -/
theorem c7_absent_fields_omitted (st : EncState) (ex : Bool)
    (fields : List (String × Value)) (hne : present fields ≠ []) :
    _encodeValue (.obj fields) st ex
      = (.u8 OBJECT :: .varint32 (present fields).length ::
          (encodeFields (present fields) st (ex || truthyOpt (getField fields exclKey))).1,
         (encodeFields (present fields) st (ex || truthyOpt (getField fields exclKey))).2) := by
  have hdef : _encodeValue (.obj fields) st ex
      = (if (fields.filter (fun kv => !isUndef kv.2)).length = 0 then ([.u8 EOBJECT], st)
         else
           (.u8 OBJECT :: .varint32 (fields.filter (fun kv => !isUndef kv.2)).length ::
              (encodeFields fields st (ex || truthyOpt (getField fields exclKey))).1,
            (encodeFields fields st (ex || truthyOpt (getField fields exclKey))).2)) := rfl
  have hlen : (fields.filter (fun kv => !isUndef kv.2)).length ≠ 0 := by
    simpa [present, List.length_eq_zero] using hne
  rw [hdef, if_neg hlen, encodeFields_filter]
  rfl

/-- C7 witness: `{a: null, b: undefined}` on a fresh progressive encoder has
pair count 1 and emits bytes only for the field `a`. -/
theorem c7_absent_fields_omitted_witness :
    _encodeValue (.obj [("a", .null), ("b", .undef)]) (mkEncoder [] true) false
      = ([.u8 OBJECT, .varint32 1, .u8 STRING_ADD, .vstring "a", .u8 NULL],
         ⟨[("a", 0)], 1, true⟩) :=
  (c7_absent_fields_omitted (mkEncoder [] true) false
    [("a", .null), ("b", .undef)] (by simp [present, isUndef])).trans (by decide)

/-- Encoding of an excluded object's fields as the spec words it for C2: each
key is still looked up in the existing dictionary (StringGet plus index on a
hit, plain String otherwise — never StringAdd), no key is ever added to the
dictionary, and every child value is encoded with the exclusion flag false. -/
def specExcludedFields : List (String × Value) → EncState → List WireItem × EncState
  | [], st => ([], st)
  | (k, v) :: rest, st =>
    if isUndef v then specExcludedFields rest st
    else
      let kout : List WireItem :=
        match dictGet st.dict k with
        | some i => [.u8 STRING_GET, .varint32 i]
        | none => [.u8 STRING, .vstring k]
      let rv := _encodeValue v st false
      let rr := specExcludedFields rest rv.2
      (kout ++ rv.1 ++ rr.1, rr.2)

/-- With the exclusion flag set, the source's key loop coincides with the
spec-side excluded loop: the progressive-add branch is unreachable. -/
theorem encodeFields_excluded (fs : List (String × Value)) (st : EncState) :
    encodeFields fs st true = specExcludedFields fs st := by
  induction fs generalizing st with
  | nil => rfl
  | cons kv rest ih =>
    obtain ⟨k, v⟩ := kv
    by_cases hv : isUndef v
    · simp only [encodeFields, specExcludedFields, hv, if_true]
      exact ih st
    · simp only [encodeFields, specExcludedFields, hv, Bool.false_eq_true, if_false,
        Bool.not_true, Bool.and_false, ih]
      cases hd : dictGet st.dict k <;> simp [hd]

/-- C2: for every object whose exclusion sentinel is truthy, the object's keys
never grow the dictionary: each key in the dictionary is emitted as StringGet
plus its index, each key not in the dictionary as plain String (never
StringAdd), and every child value is encoded with the exclusion flag false —
all captured by the spec-side `specExcludedFields`, which performs lookups
only and recurses with `false`. -/
theorem c2_excluded_keys_not_added (st : EncState) (ex : Bool)
    (fields : List (String × Value))
    (hsent : truthyOpt (getField fields exclKey) = true) :
    _encodeValue (.obj fields) st ex
      = (.u8 OBJECT :: .varint32 (present fields).length ::
          (specExcludedFields (present fields) st).1,
         (specExcludedFields (present fields) st).2) := by
  have hne : present fields ≠ [] := by
    cases hgf : getField fields exclKey with
    | none => rw [hgf] at hsent; simp [truthyOpt] at hsent
    | some v =>
      rw [hgf] at hsent
      have hv : isUndef v = false := by
        cases v <;> simp_all [truthyOpt, truthy, isUndef]
      exact present_ne_nil_of_mem fields exclKey v (getField_mem fields exclKey v hgf) hv
  rw [c7_absent_fields_omitted st ex fields hne, hsent]
  simp only [Bool.or_true]
  rw [encodeFields_excluded]

/-- C2 witness: a progressive encoder seeded with `["k"]` encoding an object
with a truthy sentinel: "k" is emitted via StringGet 0, the unknown keys via
plain String (never StringAdd), and the dictionary does not grow. -/
theorem c2_excluded_keys_not_added_witness :
    _encodeValue
        (.obj [("_PSON_EXCL_", .bool true), ("k", .null), ("m", .null)])
        (mkEncoder ["k"] true) false
      = ([.u8 OBJECT, .varint32 3, .u8 STRING, .vstring "_PSON_EXCL_", .u8 TRUE,
          .u8 STRING_GET, .varint32 0, .u8 NULL, .u8 STRING, .vstring "m", .u8 NULL],
         mkEncoder ["k"] true) :=
  (c2_excluded_keys_not_added (mkEncoder ["k"] true) false
    [("_PSON_EXCL_", .bool true), ("k", .null), ("m", .null)] (by decide)).trans (by decide)

/-- C10: the exclusion sentinel attribute itself, when an own defined (non-
`undefined`) property, is not stripped: it is included in the encoded pair
count and passes through the same key loop as every other field, while still
activating exclusion (the loop runs with flag `ex || truthy v`). -/
theorem c10_sentinel_not_stripped (st : EncState) (ex : Bool) (v : Value)
    (rest : List (String × Value)) (hv : isUndef v = false) :
    (present (("_PSON_EXCL_", v) :: rest)).length = (present rest).length + 1 ∧
    _encodeValue (.obj (("_PSON_EXCL_", v) :: rest)) st ex
      = (.u8 OBJECT :: .varint32 ((present rest).length + 1) ::
          (encodeFields (present (("_PSON_EXCL_", v) :: rest)) st (ex || truthy v)).1,
         (encodeFields (present (("_PSON_EXCL_", v) :: rest)) st (ex || truthy v)).2) := by
  have hlen : (present (("_PSON_EXCL_", v) :: rest)).length = (present rest).length + 1 := by
    simp [present_cons, hv]
  have hne : present (("_PSON_EXCL_", v) :: rest) ≠ [] := by
    intro hnil
    rw [hnil] at hlen
    simp at hlen
  have hgf : getField (("_PSON_EXCL_", v) :: rest) exclKey = some v := by
    simp [getField, exclKey]
  refine ⟨hlen, ?_⟩
  rw [c7_absent_fields_omitted st ex _ hne, hgf, hlen]
  rfl

/-- C10 witness: `{_PSON_EXCL_: true, a: null}` on a fresh progressive
encoder: pair count 2, the sentinel pair is emitted (as plain String plus
True, exclusion being active), and the dictionary stays empty. -/
theorem c10_sentinel_not_stripped_witness :
    (present (("_PSON_EXCL_", Value.bool true) :: [("a", Value.null)])).length = 2 ∧
    _encodeValue (.obj [("_PSON_EXCL_", .bool true), ("a", .null)]) (mkEncoder [] true) false
      = ([.u8 OBJECT, .varint32 2, .u8 STRING, .vstring "_PSON_EXCL_", .u8 TRUE,
          .u8 STRING, .vstring "a", .u8 NULL],
         mkEncoder [] true) := by
  have h := c10_sentinel_not_stripped (mkEncoder [] true) false (Value.bool true)
    [("a", Value.null)] (by decide)
  exact ⟨h.1.trans (by decide), h.2.trans (by decide)⟩

/-- C8: a static Encoder seeded with `["x"]`, encoding `{x: true, y: false}`,
emits Object, pair count 2, StringGet with index 0 for "x", tag True, plain
String "y" (not StringAdd), tag False — and the dictionary does not grow. -/
theorem c8_static_seeded_scenario :
    encodeTokens (mkEncoder ["x"] false)
        (.obj [("x", .bool true), ("y", .bool false)])
      = ([.u8 OBJECT, .varint32 2, .u8 STRING_GET, .varint32 0, .u8 TRUE,
          .u8 STRING, .vstring "y", .u8 FALSE],
         mkEncoder ["x"] false) := by
  decide

/-! ### Claim C1: dictionary monotonicity -/

/-- The key-emission step of the object loop, as a function: StringGet plus
index on a dictionary hit; StringAdd plus a dictionary append when
progressive and not excluded; plain String otherwise. -/
def keyOut (st : EncState) (k : String) (ex : Bool) : List WireItem × EncState :=
  match dictGet st.dict k with
  | some i => ([.u8 STRING_GET, .varint32 i], st)
  | none =>
    if st.progressive && !ex then
      ([.u8 STRING_ADD, .vstring k],
        { st with dict := dictSet st.dict k st.next, next := st.next + 1 })
    else
      ([.u8 STRING, .vstring k], st)

/-- Unfolding of the key loop at a present field, through `keyOut`. -/
theorem encodeFields_cons_present (k : String) (v : Value)
    (rest : List (String × Value)) (st : EncState) (ex : Bool)
    (hv : isUndef v = false) :
    encodeFields ((k, v) :: rest) st ex
      = ((keyOut st k ex).1 ++ (_encodeValue v (keyOut st k ex).2 false).1 ++
           (encodeFields rest (_encodeValue v (keyOut st k ex).2 false).2 ex).1,
         (encodeFields rest (_encodeValue v (keyOut st k ex).2 false).2 ex).2) := by
  have hdef : encodeFields ((k, v) :: rest) st ex
      = (if isUndef v then encodeFields rest st ex
         else
           ((keyOut st k ex).1 ++ (_encodeValue v (keyOut st k ex).2 false).1 ++
              (encodeFields rest (_encodeValue v (keyOut st k ex).2 false).2 ex).1,
            (encodeFields rest (_encodeValue v (keyOut st k ex).2 false).2 ex).2)) := rfl
  rw [hdef, if_neg (by simp [hv])]

/-- First-match lookup distributes over append: a hit in the front segment
persists, otherwise the back segment is consulted. -/
theorem dictGet_append (d t : List (String × Nat)) (k : String) :
    dictGet (d ++ t) k
      = match dictGet d k with
        | some i => some i
        | none => dictGet t k := by
  induction d with
  | nil => simp [dictGet]
  | cons p rest ih =>
    obtain ⟨k0, i0⟩ := p
    by_cases hk : k0 = k <;> simp [dictGet, hk, ih]

/-- A binding present in the dictionary persists under appending. -/
theorem dictGet_append_some (d t : List (String × Nat)) (k : String) (i : Nat)
    (h : dictGet d k = some i) : dictGet (d ++ t) k = some i := by
  rw [dictGet_append, h]

/-- Assigning an absent key appends the binding at the end, preserving all
existing bindings and their positions. -/
theorem dictSet_append_of_none (d : List (String × Nat)) (k : String) (i : Nat)
    (h : dictGet d k = none) : dictSet d k i = d ++ [(k, i)] := by
  induction d with
  | nil => rfl
  | cons p rest ih =>
    obtain ⟨k0, i0⟩ := p
    by_cases hk : k0 = k
    · simp [dictGet, hk] at h
    · simp [dictGet, hk] at h
      simp [dictSet, hk, ih h]

/-- Dictionary growth from one encoder state to a later one: the dictionary
is strictly appended to (no binding is reused, reassigned or removed), the
appended bindings carry the consecutive indices starting at the old `next`,
the counter advances by the number of appended bindings, and the progressive
flag is unchanged. -/
def Grows (st st1 : EncState) : Prop :=
  ∃ t : List (String × Nat),
    st1.dict = st.dict ++ t ∧
    st1.next = st.next + t.length ∧
    t.map Prod.snd = List.range' st.next t.length ∧
    st1.progressive = st.progressive

theorem grows_refl (st : EncState) : Grows st st :=
  ⟨[], by simp, by simp, by simp, rfl⟩

theorem grows_trans {a b c : EncState} (h1 : Grows a b) (h2 : Grows b c) :
    Grows a c := by
  obtain ⟨t1, hd1, hn1, hm1, hp1⟩ := h1
  obtain ⟨t2, hd2, hn2, hm2, hp2⟩ := h2
  refine ⟨t1 ++ t2, ?_, ?_, ?_, ?_⟩
  · rw [hd2, hd1, List.append_assoc]
  · rw [hd2] at *
    simp [hn2, hn1, List.length_append]
    omega
  · rw [List.map_append, hm1, hm2, hn1, List.length_append,
      Nat.add_comm t1.length t2.length]
    exact List.range'_append_1 a.next t1.length t2.length
  · rw [hp2, hp1]

theorem grows_keyOut (st : EncState) (k : String) (ex : Bool) :
    Grows st (keyOut st k ex).2 := by
  cases hd : dictGet st.dict k with
  | some i =>
    simp only [keyOut, hd]
    exact grows_refl st
  | none =>
    simp only [keyOut, hd]
    split
    · exact ⟨[(k, st.next)], dictSet_append_of_none st.dict k st.next hd, rfl, rfl, rfl⟩
    · exact grows_refl st

mutual

theorem grows_encodeValue (v : Value) (st : EncState) (ex : Bool) :
    Grows st (_encodeValue v st ex).2 := by
  cases v with
  | null => exact grows_refl st
  | undef => exact grows_refl st
  | bool b => exact grows_refl st
  | long x => exact grows_refl st
  | bin bs => exact grows_refl st
  | str s =>
    simp only [_encodeValue]
    split
    · exact grows_refl st
    · split <;> exact grows_refl st
  | num jn =>
    cases jn with
    | int n =>
      simp only [_encodeValue]
      split <;> exact grows_refl st
    | flt nan ok b32 b64 =>
      simp only [_encodeValue]
      split <;> exact grows_refl st
  | arr es =>
    cases es with
    | nil => exact grows_refl st
    | cons e rest => exact grows_encodeElems (e :: rest) st
  | obj fields =>
    simp only [_encodeValue]
    split
    · exact grows_refl st
    · exact grows_encodeFields fields st _

theorem grows_encodeElems (vs : List Value) (st : EncState) :
    Grows st (encodeElems vs st).2 := by
  cases vs with
  | nil => exact grows_refl st
  | cons v rest =>
    exact grows_trans (grows_encodeValue v st false)
      (grows_encodeElems rest (_encodeValue v st false).2)

theorem grows_encodeFields (fs : List (String × Value)) (st : EncState) (ex : Bool) :
    Grows st (encodeFields fs st ex).2 := by
  cases fs with
  | nil => exact grows_refl st
  | cons p rest =>
    obtain ⟨k, v⟩ := p
    by_cases hv : isUndef v
    · have h : encodeFields ((k, v) :: rest) st ex = encodeFields rest st ex := by
        simp [encodeFields, hv]
      rw [h]
      exact grows_encodeFields rest st ex
    · rw [encodeFields_cons_present k v rest st ex (by simpa using hv)]
      exact grows_trans (grows_keyOut st k ex)
        (grows_trans (grows_encodeValue v (keyOut st k ex).2 false)
          (grows_encodeFields rest (_encodeValue v (keyOut st k ex).2 false).2 ex))

end

/-- The encoder state after one `encode` call on value `v` (entered with
`excluded = false`, as `encode` does). -/
def encState (v : Value) (st : EncState) : EncState := (encodeTokens st v).2

/-- States reachable from an initial encoder state by a sequence of `encode`
calls on the same Encoder instance. -/
inductive Reach : EncState → EncState → Prop
  | refl (st : EncState) : Reach st st
  | step (st st1 : EncState) (v : Value) : Reach st st1 → Reach st (encState v st1)

theorem reach_grows {st st1 : EncState} (h : Reach st st1) : Grows st st1 := by
  induction h with
  | refl => exact grows_refl _
  | step st1 v _ ih => exact grows_trans ih (grows_encodeValue v st1 false)

/-- A dictionary binding, once made, persists with the same index across any
later growth. -/
theorem dictGet_mono {st st1 : EncState} (hg : Grows st st1) (k : String) (i : Nat)
    (h : dictGet st.dict k = some i) : dictGet st1.dict k = some i := by
  obtain ⟨t, hd, -, -, -⟩ := hg
  rw [hd]
  exact dictGet_append_some st.dict t k i h

/-- The dictionary invariant: the binding at position `n` (in insertion
order) carries index `n`, and `next` is the dictionary's size. -/
def WFdict (st : EncState) : Prop :=
  st.dict.map Prod.snd = List.range' 0 st.dict.length ∧ st.next = st.dict.length

theorem wf_of_grows {st st1 : EncState} (hwf : WFdict st) (hg : Grows st st1) :
    WFdict st1 := by
  obtain ⟨hmap, hnext⟩ := hwf
  obtain ⟨t, hd, hn, hm, -⟩ := hg
  constructor
  · rw [hd, List.map_append, hmap, hm, hnext, List.length_append,
      Nat.add_comm st.dict.length t.length]
    simpa using List.range'_append_1 0 st.dict.length t.length
  · rw [hd, hn, hnext, List.length_append]

theorem wf_index (st : EncState) (hwf : WFdict st) (n : Nat) (k : String) (i : Nat)
    (h : st.dict[n]? = some (k, i)) : i = n := by
  have hlt : n < st.dict.length := (List.getElem?_eq_some.mp h).1
  have h1 : (st.dict.map Prod.snd)[n]? = some i := by
    rw [List.getElem?_map, h]
    rfl
  rw [hwf.1, List.getElem?_range' 0 1 hlt] at h1
  simp at h1
  omega

/-- The constructor's seed loop, for pairwise-distinct fresh seeds: it
appends the seeds in list order with consecutive indices. -/
theorem seedLoop_spec (seeds : List String) (st : EncState)
    (hnd : seeds.Nodup) (hdisj : ∀ s ∈ seeds, dictGet st.dict s = none) :
    seedLoop st seeds
      = { dict := st.dict ++ seeds.zip (List.range' st.next seeds.length),
          next := st.next + seeds.length,
          progressive := st.progressive } := by
  induction seeds generalizing st with
  | nil => simp [seedLoop]
  | cons s rest ih =>
    have hs : dictGet st.dict s = none := hdisj s (List.mem_cons_self s rest)
    have hset : dictSet st.dict s st.next = st.dict ++ [(s, st.next)] :=
      dictSet_append_of_none _ _ _ hs
    have hsmem : s ∉ rest := (List.nodup_cons.mp hnd).1
    have hdisj1 : ∀ r ∈ rest,
        dictGet (dictSet st.dict s st.next) r = none := by
      intro r hr
      rw [hset, dictGet_append, hdisj r (List.mem_cons_of_mem s hr)]
      simp [dictGet, show s ≠ r from fun heq => hsmem (heq ▸ hr)]
    have hrec := ih { st with dict := dictSet st.dict s st.next, next := st.next + 1 }
      (List.nodup_cons.mp hnd).2 hdisj1
    have hstep : seedLoop st (s :: rest)
        = seedLoop { st with dict := dictSet st.dict s st.next, next := st.next + 1 } rest := rfl
    rw [hstep, hrec, hset]
    simp [List.range'_succ, List.zip_cons_cons, List.append_assoc]
    omega

/-- The constructor, for pairwise-distinct seeds: the dictionary is exactly
the seeds paired with indices `0..N-1` in list order. -/
theorem mkEncoder_spec (seeds : List String) (prog : Bool) (hnd : seeds.Nodup) :
    mkEncoder seeds prog
      = { dict := seeds.zip (List.range' 0 seeds.length), next := seeds.length,
          progressive := prog } := by
  have h := seedLoop_spec seeds { dict := [], next := 0, progressive := prog } hnd
    (fun s _ => rfl)
  simpa [mkEncoder] using h

theorem wf_mkEncoder (seeds : List String) (prog : Bool) (hnd : seeds.Nodup) :
    WFdict (mkEncoder seeds prog) := by
  rw [mkEncoder_spec seeds prog hnd]
  have hlen : (List.range' 0 seeds.length).length = seeds.length :=
    List.length_range' 0 1 seeds.length
  constructor
  · show (seeds.zip (List.range' 0 seeds.length)).map Prod.snd
      = List.range' 0 (seeds.zip (List.range' 0 seeds.length)).length
    rw [List.map_snd_zip seeds (List.range' 0 seeds.length) (by rw [hlen]),
      List.length_zip, hlen]
    simp
  · show seeds.length = (seeds.zip (List.range' 0 seeds.length)).length
    rw [List.length_zip, hlen]
    simp

/-- The wire-item pair `pat` occurs contiguously somewhere in `out`. -/
def emitsWithin (pat out : List WireItem) : Prop :=
  ∃ pre post, out = pre ++ pat ++ post

theorem emitsWithin_extend (pat l out : List WireItem) (h : emitsWithin pat out) :
    emitsWithin pat (l ++ out) := by
  obtain ⟨pre, post, heq⟩ := h
  exact ⟨l ++ pre, post, by simp [heq]⟩

/-- During the object-key loop, a key already bound to index `i` in the
dictionary is emitted as StringGet followed by that index. -/
theorem fields_emit_stringGet (fs : List (String × Value)) :
    ∀ (st : EncState) (ex : Bool) (k : String) (i : Nat) (v : Value),
      (k, v) ∈ fs → isUndef v = false → dictGet st.dict k = some i →
      emitsWithin [WireItem.u8 STRING_GET, WireItem.varint32 i]
        (encodeFields fs st ex).1 := by
  induction fs with
  | nil =>
    intro st ex k i v hmem hv hk
    simp at hmem
  | cons p rest ih =>
    intro st ex k i v hmem hv hk
    obtain ⟨k0, v0⟩ := p
    by_cases hv0 : isUndef v0
    · have hmem1 : (k, v) ∈ rest := by
        rcases List.mem_cons.mp hmem with heq | h1
        · have h2 : v = v0 := congrArg Prod.snd heq
          rw [← h2] at hv0
          rw [hv0] at hv
          cases hv
        · exact h1
      have hskip : encodeFields ((k0, v0) :: rest) st ex = encodeFields rest st ex := by
        simp [encodeFields, hv0]
      rw [hskip]
      exact ih st ex k i v hmem1 hv hk
    · rw [encodeFields_cons_present k0 v0 rest st ex (by simpa using hv0)]
      rcases List.mem_cons.mp hmem with heq | hmem1
      · have hk0 : k = k0 := congrArg Prod.fst heq
        subst hk0
        have hko : keyOut st k ex = ([WireItem.u8 STRING_GET, WireItem.varint32 i], st) := by
          simp [keyOut, hk]
        rw [hko]
        exact ⟨[], (_encodeValue v0 st false).1 ++
          (encodeFields rest (_encodeValue v0 st false).2 ex).1, by simp⟩
      · have hgrow : Grows st (_encodeValue v0 (keyOut st k0 ex).2 false).2 :=
          grows_trans (grows_keyOut st k0 ex)
            (grows_encodeValue v0 (keyOut st k0 ex).2 false)
        have hk2 : dictGet (_encodeValue v0 (keyOut st k0 ex).2 false).2.dict k = some i :=
          dictGet_mono hgrow k i hk
        have h := ih (_encodeValue v0 (keyOut st k0 ex).2 false).2 ex k i v hmem1 hv hk2
        have := emitsWithin_extend [WireItem.u8 STRING_GET, WireItem.varint32 i]
          ((keyOut st k0 ex).1 ++ (_encodeValue v0 (keyOut st k0 ex).2 false).1)
          (encodeFields rest (_encodeValue v0 (keyOut st k0 ex).2 false).2 ex).1 h
        simpa [List.append_assoc] using this

/-- C1 (amended): for an Encoder seeded with pairwise-distinct strings, the
seeds receive indices 0..N-1 in list order; in every state reachable by
encode calls, the binding at insertion position n carries index n (so the
n-th distinct key ever added has index n-1, indices being never reused,
reassigned or removed); and once a key is bound to index i, encoding any
object containing that key (with a defined value) emits tag StringGet
followed immediately by exactly that index as an unsigned varint.  Without
the distinctness proviso the claim fails: a duplicated seed is reassigned
(see the counterexample). -/
theorem c1_dictionary_monotonicity (seeds : List String) (prog : Bool)
    (st1 : EncState) (hnd : seeds.Nodup) (hr : Reach (mkEncoder seeds prog) st1) :
    (mkEncoder seeds prog).dict = seeds.zip (List.range' 0 seeds.length) ∧
    (∀ (n : Nat) (k : String) (i : Nat), st1.dict[n]? = some (k, i) → i = n) ∧
    (∀ (k : String) (i : Nat) (v : Value) (fields : List (String × Value)) (ex : Bool),
      dictGet st1.dict k = some i → (k, v) ∈ fields → isUndef v = false →
      emitsWithin [WireItem.u8 STRING_GET, WireItem.varint32 i]
        (_encodeValue (.obj fields) st1 ex).1) := by
  have hwf1 : WFdict st1 := wf_of_grows (wf_mkEncoder seeds prog hnd) (reach_grows hr)
  refine ⟨by rw [mkEncoder_spec seeds prog hnd],
    fun n k i h => wf_index st1 hwf1 n k i h, ?_⟩
  intro k i v fields ex hk hmem hv
  have hne : (fields.filter (fun kv => !isUndef kv.2)).length ≠ 0 := by
    have hm : (k, v) ∈ fields.filter (fun kv => !isUndef kv.2) :=
      List.mem_filter.mpr ⟨hmem, by simp [hv]⟩
    have := List.length_pos.mpr (List.ne_nil_of_mem hm)
    omega
  have hdef : _encodeValue (.obj fields) st1 ex
      = (if (fields.filter (fun kv => !isUndef kv.2)).length = 0 then ([.u8 EOBJECT], st1)
         else
           (.u8 OBJECT :: .varint32 (fields.filter (fun kv => !isUndef kv.2)).length ::
              (encodeFields fields st1 (ex || truthyOpt (getField fields exclKey))).1,
            (encodeFields fields st1 (ex || truthyOpt (getField fields exclKey))).2)) := rfl
  rw [hdef, if_neg hne]
  have h := fields_emit_stringGet fields st1 (ex || truthyOpt (getField fields exclKey))
    k i v hmem hv hk
  obtain ⟨pre, post, heq⟩ := h
  exact ⟨.u8 OBJECT :: .varint32 (fields.filter (fun kv => !isUndef kv.2)).length :: pre,
    post, by simp [heq]⟩

/-- C1 witness: seeds `["a","b"]` (distinct), one encode of `{c: null}`
reaching the state with dictionary `a↦0, b↦1, c↦2`; re-encoding an object
containing "c" emits StringGet followed by the varint of index 2. -/
theorem c1_dictionary_monotonicity_witness :
    emitsWithin [WireItem.u8 STRING_GET, WireItem.varint32 2]
      (_encodeValue (.obj [("c", Value.null)])
        (encState (.obj [("c", Value.null)]) (mkEncoder ["a", "b"] true)) false).1 :=
  (c1_dictionary_monotonicity ["a", "b"] true
      (encState (.obj [("c", Value.null)]) (mkEncoder ["a", "b"] true))
      (by decide)
      (Reach.step _ _ _ (Reach.refl _))).2.2
    "c" 2 Value.null [("c", Value.null)] false (by decide)
    (List.mem_singleton.mpr rfl) rfl

/-- C1 counterexample: seeding with the duplicate list `["a","a"]` reassigns
the key "a" from index 0 to index 1, so the first distinct key ever added
does not hold index 0: the claim as stated (over every Encoder instance,
seeded or not) is false. -/
theorem c1_counterexample :
    (mkEncoder ["a", "a"] true).dict[0]? = some ("a", 1) ∧
    ¬ (∀ (n : Nat) (k : String) (i : Nat),
        (mkEncoder ["a", "a"] true).dict[n]? = some (k, i) → i = n) := by
  constructor
  · decide
  · intro hall
    have h := hall 0 "a" 1 (by decide)
    cases h

/-! ### Claim C6: byte-order restoration on every exit path -/

/-- The external byte sink (`ByteBuffer`) as `encode` sees it: a byte-order
flag (`littleEndian`), the wire items written so far, and — modelled from the
spec's failure semantics (any sink write may raise, SinkFailure) — an
optional budget of writes remaining before the sink raises. -/
structure Buf where
  le : Bool
  data : List WireItem
  budget : Option Nat
deriving DecidableEq, Repr

/-- Modelled from the spec: one sink write; with an exhausted budget the sink
raises, carrying the buffer state at the point of failure. -/
def writeItem (b : Buf) (it : WireItem) : Except Buf Buf :=
  match b.budget with
  | none => .ok { b with data := b.data ++ [it] }
  | some 0 => .error b
  | some (c + 1) => .ok { b with data := b.data ++ [it], budget := some c }

/-- Writing a sequence of wire items, aborting at the first sink failure. -/
def writeItems (b : Buf) : List WireItem → Except Buf Buf
  | [] => .ok b
  | it :: rest =>
    match writeItem b it with
    | .ok b1 => writeItems b1 rest
    | .error b1 => .error b1

/-- `Encoder.encode(json, buf)`: saves the byte-order flag, forces
little-endian (`buf.LE()`) for the duration of the call, encodes, and
restores the saved flag both on the normal return and on the re-throw path
of the catch block. -/
def encode (st : EncState) (json : Value) (buf : Buf) : Except Buf (Buf × EncState) :=
  let le := buf.le
  let r := encodeTokens st json
  match writeItems { buf with le := true } r.1 with
  | .ok b => .ok ({ b with le := le }, r.2)
  | .error b => .error { b with le := le }

/-- The sink's byte-order flag as left by an `encode` call, on either exit
path (normal return or raised error). -/
def resultLE : Except Buf (Buf × EncState) → Bool
  | .ok (b, _) => b.le
  | .error b => b.le

/-- C6: on every exit path of `encode` — normal return and sink-raised error
alike — the sink's byte-order flag is restored to the value it had before the
call; little-endian is forced only for the call's own duration. -/
theorem c6_byte_order_restored (st : EncState) (json : Value) (buf : Buf) :
    resultLE (encode st json buf) = buf.le := by
  unfold encode
  cases h : writeItems { buf with le := true } (encodeTokens st json).1 <;>
    simp [h, resultLE]

end PSON
